/-
  Verification of the `giggle` ingestion-and-reconciliation pipeline.

  Shallow embedding of the relevant parts of the Python source
  (src/ingestion/...) as executable Lean definitions, followed by
  theorems settling the specification claims.
-/
import Mathlib

set_option linter.unusedVariables false

namespace Giggle

/-! ## Calendar dates (model of Python `datetime.date`) -/

/-- A calendar date, mirroring Python `datetime.date` (year, month, day). -/
structure PyDate where
  y : Nat
  m : Nat
  d : Nat
deriving DecidableEq, Repr

/-- Total order key: Python dates compare lexicographically on (y, m, d);
for the month/day ranges that actually occur (m ≤ 12, d ≤ 31) this key
agrees with the lexicographic order. -/
def PyDate.key (a : PyDate) : Nat := a.y * 10000 + a.m * 100 + a.d

/-- `a >= b` on dates, as used by `is_future_event`. -/
def PyDate.ge (a b : PyDate) : Bool := b.key ≤ a.key

/-- Leap-year test, as in Python's `calendar`/`datetime`. -/
def isLeap (y : Nat) : Bool := y % 4 == 0 && (y % 100 != 0 || y % 400 == 0)

/-- Days in a month, as validated by `datetime.date`. -/
def daysInMonth (y m : Nat) : Nat :=
  if m == 2 then (if isLeap y then 29 else 28)
  else if m == 4 || m == 6 || m == 9 || m == 11 then 30
  else 31

/-! ## `strptime(s, "%Y-%m-%d")` (model of CPython `_strptime`)

CPython compiles the format to the regex
`(?P<Y>\d\d\d\d)-(?P<m>1[0-2]|0[1-9]|[1-9])-(?P<d>3[01]|[12]\d|0[1-9]|[1-9])`
anchored at both ends, then builds a `datetime.date`, which additionally
validates the day against the month length and requires year ≥ 1. -/

def digitVal (c : Char) : Nat := c.toNat - '0'.toNat

/-- Two-digit day per the regex alternation `3[01]|[12]\d|0[1-9]`. -/
def day2 (a b : Char) : Option Nat :=
  if a == '3' && (b == '0' || b == '1') then some (30 + digitVal b)
  else if (a == '1' || a == '2') && b.isDigit then some (digitVal a * 10 + digitVal b)
  else if a == '0' && b.isDigit && b != '0' then some (digitVal b)
  else none

/-- Day matched to the end of the input (the regex is end-anchored, so the
alternation's backtracking reduces to a case split on the remaining length). -/
def parseDayEnd : List Char → Option Nat
  | [a, b] => day2 a b
  | [a] => if a.isDigit && a != '0' then some (digitVal a) else none
  | _ => none

/-- Two-digit month per the regex alternation `1[0-2]|0[1-9]`. -/
def month2 (a b : Char) : Option Nat :=
  if a == '1' && (b == '0' || b == '1' || b == '2') then some (10 + digitVal b)
  else if a == '0' && b.isDigit && b != '0' then some (digitVal b)
  else none

/-- Month, the following `-`, and the day to the end of input; falls back from
the two-digit month branch to the one-digit branch as the regex backtracks. -/
def parseMonthDay (cs : List Char) : Option (Nat × Nat) :=
  (match cs with
   | a :: b :: '-' :: rest =>
     match month2 a b with
     | some m => (parseDayEnd rest).map (fun d => (m, d))
     | none => none
   | _ => none)
  <|>
  (match cs with
   | a :: '-' :: rest =>
     if a.isDigit && a != '0' then (parseDayEnd rest).map (fun d => (digitVal a, d))
     else none
   | _ => none)

/-- `datetime.strptime(s, "%Y-%m-%d").date()` on a list of characters:
`none` models the raised `ValueError`. -/
def strptimeYmd (cs : List Char) : Option PyDate :=
  match cs with
  | y1 :: y2 :: y3 :: y4 :: '-' :: rest =>
    if y1.isDigit && y2.isDigit && y3.isDigit && y4.isDigit then
      let y := digitVal y1 * 1000 + digitVal y2 * 100 + digitVal y3 * 10 + digitVal y4
      match parseMonthDay rest with
      | some (m, d) =>
        if 1 ≤ y && d ≤ daysInMonth y m then some ⟨y, m, d⟩ else none
      | none => none
    else none
  | _ => none

/-- `part[:10]` then `strptime(_, "%Y-%m-%d")`, the parse step used by
`is_future_event`. -/
def parseDate10 (s : String) : Option PyDate := strptimeYmd (s.toList.take 10)

/-- Python `str.split()` with no arguments: split on runs of whitespace,
dropping empty tokens. -/
def isPySpace (c : Char) : Bool :=
  c == ' ' || c == '\t' || c == '\n' || c == '\r' || c == '\x0b' || c == '\x0c'

def pySplitAux : List Char → List Char → List (List Char)
  | [], acc => if acc.isEmpty then [] else [acc.reverse]
  | c :: cs, acc =>
    if isPySpace c then
      if acc.isEmpty then pySplitAux cs [] else acc.reverse :: pySplitAux cs []
    else pySplitAux cs (c :: acc)

def pySplit (s : String) : List (List Char) := pySplitAux s.toList []

/-! ## Text cleaning (src/ingestion/utils/text.py `clean_text`)

`clean_text` composes: `html.unescape`, `unicodedata.normalize("NFKC", ·)`,
removal of the four hidden characters, `str.strip()`, and `replace("\xa0", " ")`,
returning `None` for a falsy input or an empty result.  The Python stdlib
pieces are modelled as follows, restricted to the character classes the
claims exercise:
* `html.unescape` — resolves the named entities `amp`, `lt`, `gt`, `quot`,
  `nbsp` (one pass, left to right, no rescanning of the replacement);
* NFKC — folds full-width Latin letters and digits (U+FF01..) to ASCII and
  NO-BREAK SPACE to SPACE, leaving other characters unchanged;
* `str.strip()` — strips the whitespace characters reachable here. -/

/-- NO-BREAK SPACE (`"\xa0"`). -/
def nbsp : Char := Char.ofNat 0xA0

/-- One pass of `html.unescape` over the modelled entity set, with explicit
fuel to keep the recursion structural; each step consumes at least one
character while spending exactly one unit of fuel, so fuel equal to the
input length never runs out. -/
def unescapeAux : Nat → List Char → List Char
  | 0, l => l
  | _ + 1, [] => []
  | fuel + 1, c :: rest =>
    if c = '&' then
      if rest.take 4 = "amp;".toList then '&' :: unescapeAux fuel (rest.drop 4)
      else if rest.take 3 = "lt;".toList then '<' :: unescapeAux fuel (rest.drop 3)
      else if rest.take 3 = "gt;".toList then '>' :: unescapeAux fuel (rest.drop 3)
      else if rest.take 5 = "quot;".toList then
        '"' :: unescapeAux fuel (rest.drop 5)
      else if rest.take 5 = "nbsp;".toList then
        nbsp :: unescapeAux fuel (rest.drop 5)
      else '&' :: unescapeAux fuel rest
    else c :: unescapeAux fuel rest

/-- `html.unescape` over the modelled entity set. -/
def htmlUnescape (l : List Char) : List Char := unescapeAux l.length l

/-- NFKC folding table: full-width Latin capitals/smalls/digits to ASCII,
NO-BREAK SPACE to SPACE. -/
def nfkcTable : List (Char × Char) :=
  ((List.range 26).map (fun i => (Char.ofNat (0xFF21 + i), Char.ofNat (0x41 + i)))) ++
  ((List.range 26).map (fun i => (Char.ofNat (0xFF41 + i), Char.ofNat (0x61 + i)))) ++
  ((List.range 10).map (fun i => (Char.ofNat (0xFF10 + i), Char.ofNat (0x30 + i)))) ++
  [(nbsp, ' ')]

/-- `unicodedata.normalize("NFKC", ·)`, per character. -/
def nfkcChar (c : Char) : Char :=
  match nfkcTable.find? (fun p => p.1 == c) with
  | some p => p.2
  | none => c

/-- The hidden characters removed by `clean_text`:
ZERO WIDTH SPACE, BOM, LRM, RLM. -/
def isHiddenChar (c : Char) : Bool :=
  c == Char.ofNat 0x200B || c == Char.ofNat 0xFEFF ||
  c == Char.ofNat 0x200E || c == Char.ofNat 0x200F

/-- Whitespace for `str.strip()`. -/
def isStripSpace (c : Char) : Bool :=
  isPySpace c || c == nbsp || c == Char.ofNat 0x85

/-- `str.strip()` on a character list. -/
def stripChars (l : List Char) : List Char :=
  ((l.dropWhile isStripSpace).reverse.dropWhile isStripSpace).reverse

/-- The character-level body of `clean_text`: unescape, NFKC, hidden-char
removal, strip, and the final `replace("\xa0", " ")`. -/
def cleanList (l : List Char) : List Char :=
  let t1 := htmlUnescape l
  let t2 := t1.map nfkcChar
  let t3 := t2.filter (fun c => !isHiddenChar c)
  let t4 := stripChars t3
  t4.map (fun c => if c == nbsp then ' ' else c)

/-- The whole `clean_text` pipeline on a non-None string. -/
def cleanTextStr (s : String) : Option String :=
  if s.toList.isEmpty then none
  else
    let t5 := cleanList s.toList
    if t5.isEmpty then none else some (String.mk t5)

/-- `clean_text(text: Optional[str]) -> Optional[str]`. -/
def cleanText : Option String → Option String
  | none => none
  | some s => cleanTextStr s

/-! ## The Event model (src/ingestion/models.py) -/

/-- A text-ish field: `Optional[Union[str, List[str]]]`. -/
inductive TextField where
  | null : TextField
  | s (x : String) : TextField
  | l (xs : List String) : TextField
deriving DecidableEq, Repr

/-- One entry of a date list: `date`/`datetime` (a `datetime` contributes only
its `.date()` in every place the claims touch) or a raw string. -/
inductive DateItem where
  | d (x : PyDate) : DateItem
  | s (x : String) : DateItem
deriving DecidableEq, Repr

/-- The `date` field: `Optional[Union[date, str, List[str], List[date]]]`. -/
inductive DateField where
  | null : DateField
  | d (x : PyDate) : DateField
  | s (x : String) : DateField
  | l (xs : List DateItem) : DateField
deriving DecidableEq, Repr

/-- The tz attached to a `datetime.time`: a fixed numeric offset in minutes
(`datetime.timezone(offset)`) or a named `ZoneInfo` zone. -/
inductive TzInfo where
  | fixed (offsetMin : Int) : TzInfo
  | named : TzInfo
deriving DecidableEq, Repr

/-- Model of Python `datetime.time` (with optional tzinfo). -/
structure PyTime where
  hour : Nat
  minute : Nat
  second : Nat
  tz : Option TzInfo
deriving DecidableEq, Repr

/-- The canonical Event (src/ingestion/models.py `Event`), after validation. -/
structure Event where
  event : TextField
  ticket : TextField
  performer : TextField
  date : DateField
  time : Option (List PyTime)
  venue : TextField
  location : TextField
  image : TextField
  url : String
  metadata : Option (List (String × String))
deriving DecidableEq, Repr

/-! ## `is_future_event` (src/ingestion/utils/dates.py) -/

/-- The string branch of `is_future_event`: split on whitespace, parse each
token's first 10 chars, keep if any parsed date is ≥ today, drop if some
parsed and none future, keep if none parsed (fail-open on the string case). -/
def futureStr (today : PyDate) (str : String) : Bool :=
  let parts := pySplit str
  if parts.isEmpty then true
  else
    let parsed := parts.filterMap (fun p => strptimeYmd (p.take 10))
    if parsed.any (fun d => d.ge today) then true
    else if parsed.isEmpty then true
    else false

/-- One list entry's contribution: a `date`/`datetime` compares directly,
a string is parsed from its first 10 characters (unparseable → no vote). -/
def futureItem (today : PyDate) (i : DateItem) : Bool :=
  match i with
  | .d d => d.ge today
  | .s s => match parseDate10 s with
            | some d => d.ge today
            | none => false

/-- `is_future_event` (src/ingestion/utils/dates.py): `today` stands for
`datetime.now(ZoneInfo("Asia/Tokyo")).date()`. -/
def isFutureEvent (today : PyDate) (e : Event) : Bool :=
  match e.date with
  | .s str => futureStr today str
  | .d d => d.ge today
  | .l items => items.any (futureItem today)
  | .null => true

/-! ## Field validators (src/ingestion/models.py) -/

/-- The loop body of `Event.validate_text` on a list: clean each element,
keep it when the cleaned value is truthy and not seen yet (dedup by cleaned
value, order preserving). -/
def cleanedDedup : List String → List String → List String
  | [], _ => []
  | i :: rest, seen =>
    match cleanText (some i) with
    | some c => if c ∈ seen then cleanedDedup rest seen
                else c :: cleanedDedup rest (c :: seen)
    | none => cleanedDedup rest seen

/-- `Event.validate_text` (mode="before") for the fields
event/performer/venue/location/ticket/image. -/
def validateText : TextField → TextField
  | .l xs => .l (cleanedDedup xs [])
  | .s x => match cleanText (some x) with
            | some c => .s c
            | none => .null
  | .null => .null

/-- The dedup loop of `Event.validate_date` on a list (no cleaning, plain
equality, order preserving). -/
def dedupItems : List DateItem → List DateItem → List DateItem
  | [], _ => []
  | i :: rest, seen =>
    if i ∈ seen then dedupItems rest seen
    else i :: dedupItems rest (i :: seen)

/-- `Event.validate_date` (mode="before"): lists are deduplicated,
everything else passes through. -/
def validateDate : DateField → DateField
  | .l xs => .l (dedupItems xs [])
  | other => other

/-! ## Event construction (pydantic `Event(...)`)

`Event.validate_time` only wraps a scalar into a list; pydantic then coerces
every entry of the list to `datetime.time`, raising a `ValidationError` on a
string it cannot parse.  The missing `url` likewise raises.  Construction is
therefore modelled as `Except`: `.error` is a raised `ValidationError`. -/

/-- A raw `time` entry handed to the model: already a `time` object, or a
string for pydantic to coerce. -/
inductive RawTimeItem where
  | t (x : PyTime) : RawTimeItem
  | s (x : String) : RawTimeItem
deriving DecidableEq, Repr

/-- The raw `time` keyword argument: absent, a scalar, or a list. -/
inductive RawTimeVal where
  | null : RawTimeVal
  | scalar (x : RawTimeItem) : RawTimeVal
  | l (xs : List RawTimeItem) : RawTimeVal
deriving DecidableEq, Repr

/-- Two-digit decimal field `[0-9][0-9]`. -/
def twoDigits (a b : Char) : Option Nat :=
  if a.isDigit && b.isDigit then some (digitVal a * 10 + digitVal b) else none

/-- pydantic's `datetime.time` coercion from a string, restricted to the
`HH:MM` and `HH:MM:SS` shapes (no fractional seconds or offset suffix);
any other string raises. -/
def parsePyTime (s : String) : Option PyTime :=
  match s.toList with
  | [h1, h2, ':', m1, m2] =>
    match twoDigits h1 h2, twoDigits m1 m2 with
    | some h, some m => if h < 24 && m < 60 then some ⟨h, m, 0, none⟩ else none
    | _, _ => none
  | [h1, h2, ':', m1, m2, ':', s1, s2] =>
    match twoDigits h1 h2, twoDigits m1 m2, twoDigits s1 s2 with
    | some h, some m, some sec =>
      if h < 24 && m < 60 && sec < 60 then some ⟨h, m, sec, none⟩ else none
    | _, _, _ => none
  | _ => none

/-- Coerce one raw time entry, failing as pydantic does. -/
def coerceTimeItem : RawTimeItem → Except String PyTime
  | .t x => .ok x
  | .s x => match parsePyTime x with
            | some t => .ok t
            | none => .error "time: input is not a valid time"

/-- pydantic's left-to-right coercion of the entries of a `time` list; the
first failing entry fails the construction. -/
def coerceTimeList : List RawTimeItem → Except String (List PyTime)
  | [] => .ok []
  | i :: rest =>
    match coerceTimeItem i with
    | .error e => .error e
    | .ok t =>
      match coerceTimeList rest with
      | .error e => .error e
      | .ok ts => .ok (t :: ts)

/-- `Event.validate_time` (wrap scalar into a list) followed by pydantic's
per-entry coercion. -/
def validateTime : RawTimeVal → Except String (Option (List PyTime))
  | .null => .ok none
  | .scalar x =>
    match coerceTimeItem x with
    | .error e => .error e
    | .ok t => .ok (some [t])
  | .l xs =>
    match coerceTimeList xs with
    | .error e => .error e
    | .ok ts => .ok (some ts)

/-- The raw keyword arguments of an `Event(...)` call. -/
structure RawEvent where
  event : TextField
  ticket : TextField
  performer : TextField
  date : DateField
  time : RawTimeVal
  venue : TextField
  location : TextField
  image : TextField
  url : Option String
  metadata : Option (List (String × String))
deriving Repr

/-- pydantic construction of `Event`: text/date validators never fail,
`url` is required, and each `time` entry must coerce to `datetime.time`.
(The `resolve_timezone` model validator, which mutates `time` but swallows
every exception, is modelled separately below.) -/
def constructEvent (r : RawEvent) : Except String Event :=
  match r.url with
  | none => .error "url: Field required"
  | some url =>
    match validateTime r.time with
    | .error e => .error e
    | .ok time =>
      .ok { event := validateText r.event
            ticket := validateText r.ticket
            performer := validateText r.performer
            date := validateDate r.date
            time := time
            venue := validateText r.venue
            location := validateText r.location
            image := validateText r.image
            url := url
            metadata := r.metadata }

/-! ## Timezone attachment (src/ingestion/utils/timezone.py, models.py)

`ZoneInfo` is external; a zone is modelled by its UTC offset (in minutes) as
a function of the calendar date of the combined datetime — exactly the
granularity `attach_timezone` exercises, since the naive time is combined
with a single reference date before `utcoffset` is read. -/

/-- A named IANA zone: its UTC offset in minutes at a given date. -/
structure Zone where
  offsetAt : PyDate → Int

/-- The `reference_date` argument of `attach_timezone`: a `date`, a string
(parsed with `strptime("%Y-%m-%d")`, falling back to today), or absent. -/
inductive RefDate where
  | d (x : PyDate) : RefDate
  | s (x : String) : RefDate
deriving DecidableEq, Repr

/-- `attach_timezone(t, tz_name, reference_date=None)`: an aware time passes
through unchanged; otherwise the zone's offset is computed at the reference
date (today when absent or unparseable) and attached as a fixed offset —
except that a zero offset is falsy in Python (`if offset:`), in which case
the named zone itself is attached. -/
def attachTimezone (t : PyTime) (z : Zone) (today : PyDate)
    (referenceDate : Option RefDate) : PyTime :=
  if t.tz.isSome then t
  else
    let refDate : PyDate :=
      match referenceDate with
      | none => today
      | some (.d x) => x
      | some (.s x) =>
        match strptimeYmd x.toList with
        | some d => d
        | none => today
    let offset := z.offsetAt refDate
    if offset ≠ 0 then { t with tz := some (.fixed offset) }
    else { t with tz := some .named }

/-- The time-updating loop of `Event.resolve_timezone` (models.py): the
validator computes a `ref_date` from the event's first resolved date but
never passes it on — `attach_timezone(t, tz_name)` is called without a
reference date, so the offset is always computed at today. -/
def resolveTimezoneTimes (times : List PyTime) (z : Zone) (today : PyDate) :
    List PyTime :=
  times.map (fun t => attachTimezone t z today none)

/-! ## Persistence (src/ingestion/services/importer.py)

The Supabase `events` table is modelled as a list of rows; `upsert` with
`on_conflict="url"` overwrites the rows whose `url` matches and appends
fresh urls; `delete ... in_("url", …)` filters rows out. -/

/-- `pad2`: two-digit zero-padded decimal. -/
def pad2 (n : Nat) : String := if n < 10 then "0" ++ toString n else toString n

/-- `date.isoformat()`. -/
def pyDateIso (d : PyDate) : String :=
  (if d.y < 10 then "000" else if d.y < 100 then "00" else if d.y < 1000 then "0" else "")
    ++ toString d.y ++ "-" ++ pad2 d.m ++ "-" ++ pad2 d.d

/-- `timedelta`/offset rendering `±HH:MM` used by `time.isoformat()`. -/
def offsetIso (min : Int) : String :=
  if min < 0 then "-" ++ pad2 ((-min).toNat / 60) ++ ":" ++ pad2 ((-min).toNat % 60)
  else "+" ++ pad2 (min.toNat / 60) ++ ":" ++ pad2 (min.toNat % 60)

/-- `time.isoformat()` (a named-zone suffix is abstracted as its zone tag). -/
def pyTimeIso (t : PyTime) : String :=
  pad2 t.hour ++ ":" ++ pad2 t.minute ++ ":" ++ pad2 t.second ++
  (match t.tz with
   | none => ""
   | some (.fixed m) => offsetIso m
   | some .named => "+zone")

/-- A persisted row: the event dictionary after `model_dump(exclude=
{"metadata"})`, scalar fields wrapped into lists, dates and times rendered
as strings. -/
structure Row where
  url : String
  event : Option (List String)
  ticket : Option (List String)
  performer : Option (List String)
  date : Option (List String)
  time : Option (List String)
  venue : Option (List String)
  location : Option (List String)
  image : Option (List String)
deriving DecidableEq, Repr

/-- Scalar-to-list wrapping of a text field (`None` stays `None`, a list —
even an empty one — stays as it is). -/
def textDump : TextField → Option (List String)
  | .null => none
  | .s x => some [x]
  | .l xs => some xs

/-- The `date` column value: wrap scalars, stringify `date` objects. -/
def dateDump : DateField → Option (List String)
  | .null => none
  | .d x => some [pyDateIso x]
  | .s x => some [x]
  | .l xs => some (xs.map (fun i => match i with
      | .d x => pyDateIso x
      | .s x => x))

/-- The `time` column value. -/
def timeDump : Option (List PyTime) → Option (List String)
  | none => none
  | some ts => some (ts.map pyTimeIso)

/-- The per-event serialization loop of `Importer._upsert_events`. -/
def toRow (e : Event) : Row :=
  { url := e.url
    event := textDump e.event
    ticket := textDump e.ticket
    performer := textDump e.performer
    date := dateDump e.date
    time := timeDump e.time
    venue := textDump e.venue
    location := textDump e.location
    image := textDump e.image }

/-- The store: the rows of the Supabase `events` table. -/
abbrev Store := List Row

/-- Upsert of one row with `on_conflict="url"`: overwrite the rows carrying
the url, or append when absent. -/
def upsertRow (s : Store) (r : Row) : Store :=
  if s.any (fun x => x.url == r.url) then
    s.map (fun x => if x.url == r.url then r else x)
  else s ++ [r]

/-- `Importer._upsert_events` (batch upsert, one statement). -/
def upsertRows (s : Store) (rs : List Row) : Store := rs.foldl upsertRow s

/-- Case-insensitive ASCII lowering of a character (for `ilike`). -/
def lowerChar (c : Char) : Char := c.toLower

/-- `needle` occurs as a contiguous substring of `hay`. -/
def containsSub (needle : List Char) : List Char → Bool
  | [] => needle.isEmpty
  | c :: cs => needle.isPrefixOf (c :: cs) || containsSub needle cs

/-- Supabase `ilike("url", "%pattern%")`: case-insensitive substring. -/
def ilikeMatch (pattern url : String) : Bool :=
  containsSub (pattern.toList.map lowerChar) (url.toList.map lowerChar)

/-- Python `pattern in url`: case-sensitive substring. -/
def pyIn (pattern url : String) : Bool :=
  containsSub pattern.toList url.toList

/-- The source → URL-pattern registry, duplicated verbatim in
`save_results` and `_delete_missing_events`. -/
def sourcePattern (source : String) : Option String :=
  if source == "Songkick" then some "songkick.com"
  else if source == "Eplus" then some "eplus.jp"
  else if source == "Pia" then some "pia.jp"
  else none

/-- `Importer._delete_missing_events`: for each listed source, delete the
stored rows matching the source's pattern whose url was not found this
run. -/
def deleteMissingEvents (sourceUrls : List (String × List String))
    (s : Store) : Store :=
  sourceUrls.foldl
    (fun acc entry =>
      match sourcePattern entry.1 with
      | none => acc
      | some pat =>
        acc.filter (fun row =>
          !(ilikeMatch pat row.url && !decide (row.url ∈ entry.2))))
    s

/-- The dedup loop of `save_results` (`unique_events_map`, insertion order,
first occurrence wins). -/
def dedupByUrlAux : List Event → List String → List Event
  | [], _ => []
  | e :: rest, seen =>
    if e.url ∈ seen then dedupByUrlAux rest seen
    else e :: dedupByUrlAux rest (e.url :: seen)

def dedupByUrl (es : List Event) : List Event := dedupByUrlAux es []

/-- The `source_url_map` built by `save_results`: one entry per successful
source that has a registered pattern, carrying the urls found this run
(Python `in`, case-sensitive). -/
def buildSourceUrlMap (successfulSources : List String)
    (uniqueEvents : List Event) : List (String × List String) :=
  successfulSources.filterMap (fun source =>
    (sourcePattern source).map (fun pat =>
      (source, (uniqueEvents.filter (fun e => pyIn pat e.url)).map Event.url)))

/-- Outcome of `Importer.save_results`: the resulting table plus whether an
upsert write and a reconciliation delete actually reached the store.
`upsertFails` models the Supabase upsert raising (the write does not land);
the surrounding `try/except` in `save_results` catches it and the function
continues. -/
structure SaveOutcome where
  store : Store
  didUpsert : Bool
  didDelete : Bool
deriving DecidableEq, Repr

/-- `Importer.save_results(all_events, successful_sources, dry_run=…)`.
`today` feeds the `is_future_event` filter; `upsertFails` selects the
exceptional branch of the upsert `try/except`. -/
def saveResults (allEvents : List Event) (successfulSources : List String)
    (dryRun : Bool) (upsertFails : Bool) (today : PyDate) (store : Store) :
    SaveOutcome :=
  if allEvents.isEmpty then ⟨store, false, false⟩
  else if dryRun then ⟨store, false, false⟩
  else
    let futureEvents := allEvents.filter (isFutureEvent today)
    let uniqueEvents := dedupByUrl futureEvents
    let store1 :=
      if upsertFails then store
      else upsertRows store (uniqueEvents.map toRow)
    let srcMap := buildSourceUrlMap successfulSources uniqueEvents
    if srcMap.isEmpty then
      ⟨store1, !upsertFails && !uniqueEvents.isEmpty, false⟩
    else
      ⟨deleteMissingEvents srcMap store1,
       !upsertFails && !uniqueEvents.isEmpty, true⟩

/-! ## Orchestrator collection (src/ingestion/main.py `main`)

`run_connector` catches every adapter exception and returns `(name, [])`;
the collection loop then appends to `all_events` and records the source as
successful only when the returned list is non-empty.  An adapter outcome is
modelled as `none` (raised) or `some events` (returned). -/

/-- The `as_completed` collection loop: fold the outcomes into
`(all_events, successful_sources)`. -/
def collectResults : List (String × Option (List Event)) →
    List Event × List String
  | [] => ([], [])
  | (name, res) :: rest =>
    let events := res.getD []
    let acc := collectResults rest
    if events.isEmpty then acc else (events ++ acc.1, name :: acc.2)

/-! ## Circuit breaker (src/ingestion/connectors/eplus.py)

`EplusConnector` keeps `consecutive_failures` and `circuit_open`
(`max_consecutive_failures = 20`).  `_check_exclusion` raises
`CircuitBreakerError` immediately when the breaker is open; a sub-fetch that
eventually answers 200 or 404 resets the counter; one that exhausts its
retries increments it and opens the breaker once the counter reaches the
threshold. -/

/-- The breaker state of one adapter run. -/
structure Breaker where
  consecutiveFailures : Nat
  circuitOpen : Bool
deriving DecidableEq, Repr

def initBreaker : Breaker := ⟨0, false⟩

def maxConsecutiveFailures : Nat := 20

/-- Net outcome of one sub-fetch (after the local retry loop):
HTTP 200 with a genre verdict, HTTP 404, or retries exhausted. -/
inductive FetchOutcome where
  | success (excludedGenre : Bool) : FetchOutcome
  | notFound : FetchOutcome
  | failure : FetchOutcome
deriving DecidableEq, Repr

/-- What one `_check_exclusion` call did. -/
inductive SubResult where
  | abandoned : SubResult
  | checked (excluded : Bool) : SubResult
  | tripped : SubResult
deriving DecidableEq, Repr

/-- One `_check_exclusion` call: the breaker bookkeeping of the source,
with the network outcome abstracted as `o`. -/
def checkExclusion (st : Breaker) (o : FetchOutcome) : Breaker × SubResult :=
  if st.circuitOpen then (st, .abandoned)
  else
    match o with
    | .success g => ({ st with consecutiveFailures := 0 }, .checked g)
    | .notFound => ({ st with consecutiveFailures := 0 }, .checked false)
    | .failure =>
      let n := st.consecutiveFailures + 1
      if n ≥ maxConsecutiveFailures then
        ({ consecutiveFailures := n, circuitOpen := true }, .tripped)
      else
        ({ st with consecutiveFailures := n }, .checked true)

/-- A sequence of sub-fetches within one adapter run. -/
def runChecks (st : Breaker) : List FetchOutcome → Breaker × List SubResult
  | [] => (st, [])
  | o :: os =>
    let (st1, r) := checkExclusion st o
    let (st2, rs) := runChecks st1 os
    (st2, r :: rs)

/-! ## Observers and fixtures used by the verification -/

/-- The store state at a url: the (first) row carrying it. -/
def storeState (s : Store) (u : String) : Option Row :=
  s.find? (fun r => r.url == u)

/-- Number of rows carrying a url. -/
def countUrl (s : Store) (u : String) : Nat :=
  (s.filter (fun r => r.url == u)).length

/-- The last row of a batch carrying a url (the one a batched upsert leaves
in the table). -/
def lastWith : List Row → String → Option Row
  | [], _ => none
  | r :: rs, u =>
    match lastWith rs u with
    | some x => some x
    | none => if r.url == u then some r else none

/-- A raw date token parses (via its first ten characters) to a date on or
after `today`. -/
def tokenFuture (today : PyDate) (p : List Char) : Bool :=
  match strptimeYmd (p.take 10) with
  | some d => d.ge today
  | none => false

/-- A raw date token parses at all. -/
def tokenParses (p : List Char) : Bool := (strptimeYmd (p.take 10)).isSome

/-- Every `time` entry of the raw value coerces to a `datetime.time`. -/
def timeCoercible : RawTimeVal → Bool
  | .null => true
  | .scalar (.t _) => true
  | .scalar (.s x) => (parsePyTime x).isSome
  | .l xs => xs.all (fun i => match i with
      | .t _ => true
      | .s x => (parsePyTime x).isSome)

/-- A DST-observing zone in the shape of America/New_York: UTC−4 from April
to October, UTC−5 otherwise (model of external tzdata, used to exhibit the
offset-reference behaviour). -/
def dstZone : Zone := ⟨fun d => if 3 < d.m && d.m < 11 then -240 else -300⟩

/-- An event fixture: all optional fields absent except `date`. -/
def dateEvent (u : String) (df : DateField) : Event :=
  { event := .null, ticket := .null, performer := .null, date := df,
    time := none, venue := .null, location := .null, image := .null,
    url := u, metadata := none }

/-- An event fixture distinguished by its `event` title, for first-seen
tests. -/
def titledEvent (u title : String) (df : DateField) : Event :=
  { event := .s title, ticket := .null, performer := .null, date := df,
    time := none, venue := .null, location := .null, image := .null,
    url := u, metadata := none }

/-- A stored-row fixture with only the url populated. -/
def urlRow (u : String) : Row :=
  { url := u, event := none, ticket := none, performer := none, date := none,
    time := none, venue := none, location := none, image := none }

/-- A raw-event fixture: everything absent except what is passed. -/
def rawWith (url : Option String) (time : RawTimeVal) : RawEvent :=
  { event := .null, ticket := .null, performer := .null, date := .null,
    time := time, venue := .null, location := .null, image := .null,
    url := url, metadata := none }

/-- The reference "today" used by concrete scenarios. -/
def refToday : PyDate := ⟨2025, 6, 1⟩

/-! # Theorems -/

/-! ## C10 — empty batch performs no store operation -/

/-- C10: if `Importer.save_results` is given an empty list of events it
performs no store operation at all — no upsert and no reconciliation
deletion, whatever the successful-source list, dry-run flag or upsert
behaviour — and the persisted store is left unchanged. -/
theorem c10_theorem (sources : List String) (dryRun upsertFails : Bool)
    (today : PyDate) (store : Store) :
    saveResults [] sources dryRun upsertFails today store =
      ⟨store, false, false⟩ := rfl

/-! ## C4 — the attached offset is computed at today, not the event's date -/

/-- C4 (code bug): for a naive time of an event whose timezone resolved to a
DST-observing zone, `Event.resolve_timezone` computes a `ref_date` from the
event's own first date but never passes it to `attach_timezone`, so the
attached fixed offset is the zone's offset at *today* (here −240 min on
2026-07-01) even though the spec requires the offset at the event's own
date (−300 min on 2026-01-15); times already carrying an offset do pass
through unchanged. -/
theorem c4_theorem :
    resolveTimezoneTimes [⟨19, 0, 0, none⟩] dstZone ⟨2026, 7, 1⟩ =
      [⟨19, 0, 0, some (.fixed (-240))⟩] ∧
    dstZone.offsetAt ⟨2026, 1, 15⟩ = -300 ∧
    (-240 : Int) ≠ -300 ∧
    attachTimezone ⟨19, 0, 0, some (.fixed (-300))⟩ dstZone ⟨2026, 7, 1⟩ none =
      ⟨19, 0, 0, some (.fixed (-300))⟩ := by
  refine ⟨by decide, by decide, by decide, by decide⟩

/-! ## C9 — the breaker opens at the 20th consecutive failure, not after
exceeding 20 -/

/-- C9 counterexample: after exactly 20 consecutive sub-fetch failures the
count has only *reached* the threshold of 20 (it does not exceed it), yet
the circuit is already open and the next sub-fetch is abandoned without
being attempted — contradicting the claim that abandonment starts only once
the count exceeds 20. -/
theorem c9_counterexample :
    (runChecks initBreaker (List.replicate 20 .failure)).1 = ⟨20, true⟩ ∧
    ¬ (20 > maxConsecutiveFailures) ∧
    (checkExclusion ⟨20, true⟩ (.success false)).2 = .abandoned := by
  refine ⟨by decide, by decide, by decide⟩

/-- C9 (amended): within one adapter run, the breaker opens as soon as the
count of consecutive sub-fetch failures *reaches* the threshold of 20; and
once open, every further sub-fetch of that run is abandoned immediately
without being attempted, the state never changes again (in particular the
breaker never closes for the remainder of the run). -/
theorem c9_theorem :
    (∀ (st : Breaker) (o : FetchOutcome), st.circuitOpen = false →
      ((checkExclusion st o).1.circuitOpen = true ↔
        o = .failure ∧ maxConsecutiveFailures ≤ st.consecutiveFailures + 1)) ∧
    (∀ (st : Breaker) (os : List FetchOutcome), st.circuitOpen = true →
      runChecks st os = (st, os.map (fun _ => .abandoned))) := by
  constructor
  · intro st o h
    cases o with
    | success g => simp [checkExclusion, h]
    | notFound => simp [checkExclusion, h]
    | failure =>
      by_cases hn : maxConsecutiveFailures ≤ st.consecutiveFailures + 1
      · simp [checkExclusion, h, hn]
      · simp [checkExclusion, h, hn]
  · intro st os h
    induction os with
    | nil => simp [runChecks]
    | cons o os ih => simp [runChecks, checkExclusion, h, ih]

/-- C9 witness: the amended theorem applied at concrete states — the 20th
consecutive failure opens the breaker, and an open breaker abandons a whole
remaining run unchanged. -/
theorem c9_witness :
    (checkExclusion ⟨19, false⟩ .failure).1.circuitOpen = true ∧
    runChecks ⟨20, true⟩ [.success false, .failure] =
      (⟨20, true⟩, [.abandoned, .abandoned]) :=
  ⟨(c9_theorem.1 ⟨19, false⟩ .failure rfl).mpr ⟨rfl, by decide⟩,
   c9_theorem.2 ⟨20, true⟩ [.success false, .failure] rfl⟩

/-! ## C3 — the future-date filter fails open only for string dates -/

theorem filterMap_any_future (today : PyDate) (parts : List (List Char)) :
    ((parts.filterMap (fun p => strptimeYmd (p.take 10))).any
      (fun d => d.ge today)) = parts.any (tokenFuture today) := by
  induction parts with
  | nil => rfl
  | cons p rest ih =>
    simp only [List.filterMap_cons]
    cases h : strptimeYmd (p.take 10) with
    | none => simp [List.any_cons, tokenFuture, h, ih]
    | some d => simp [List.any_cons, tokenFuture, h, ih]

theorem filterMap_isEmpty_parses (parts : List (List Char)) :
    ((parts.filterMap (fun p => strptimeYmd (p.take 10))).isEmpty) =
      !parts.any tokenParses := by
  induction parts with
  | nil => rfl
  | cons p rest ih =>
    simp only [List.filterMap_cons]
    cases h : strptimeYmd (p.take 10) with
    | none => simp [List.any_cons, tokenParses, h, ih]
    | some d => simp [List.any_cons, tokenParses, h]

/-- Characterization of the string branch of `is_future_event`. -/
theorem futureStr_eq (today : PyDate) (str : String) :
    futureStr today str =
      ((pySplit str).any (tokenFuture today) || !(pySplit str).any tokenParses) := by
  unfold futureStr
  cases hp : pySplit str with
  | nil => simp
  | cons p rest =>
    simp only [List.isEmpty_cons, Bool.false_eq_true, if_false,
      filterMap_any_future, filterMap_isEmpty_parses]
    by_cases h1 : (p :: rest).any (tokenFuture today) = true
    · simp [h1]
    · simp only [Bool.not_eq_true] at h1
      by_cases h2 : (p :: rest).any tokenParses = true
      · simp [h1, h2]
      · simp only [Bool.not_eq_true] at h2
        simp [h1, h2]

/-- C3 counterexample: an Event whose date field is a *list* of strings that
parses to zero valid dates is dropped by `is_future_event` (it returns
`false`), not kept — the fail-open default applies only to the
single-string shape. -/
theorem c3_counterexample :
    parseDate10 "not a date" = none ∧
    isFutureEvent refToday
      (dateEvent "https://example.com/e" (.l [.s "not a date"])) = false ∧
    isFutureEvent refToday (dateEvent "https://example.com/e" (.s "not a date"))
      = true := by
  refine ⟨by decide, by decide, by decide⟩

/-- C3 (amended): an Event is kept if any parseable date in its date field
is on or after today; a single-string date field is dropped when at least
one token parses and all parsed dates are past, and kept (fail-open) when
zero tokens parse; but a list-valued date field is dropped whenever no
entry yields a date on or after today — in particular a list parsing to
zero valid dates is dropped, not kept. -/
theorem c3_theorem :
    (∀ (today : PyDate) (e : Event) (str : String), e.date = .s str →
      (pySplit str).any (tokenFuture today) = true →
      isFutureEvent today e = true) ∧
    (∀ (today : PyDate) (e : Event) (str : String), e.date = .s str →
      (pySplit str).any tokenParses = true →
      (pySplit str).any (tokenFuture today) = false →
      isFutureEvent today e = false) ∧
    (∀ (today : PyDate) (e : Event) (str : String), e.date = .s str →
      (pySplit str).any tokenParses = false →
      isFutureEvent today e = true) ∧
    (∀ (today : PyDate) (e : Event) (items : List DateItem), e.date = .l items →
      (∃ i ∈ items, futureItem today i = true) →
      isFutureEvent today e = true) ∧
    (∀ (today : PyDate) (e : Event) (items : List DateItem), e.date = .l items →
      (∀ i ∈ items, futureItem today i = false) →
      isFutureEvent today e = false) := by
  refine ⟨?_, ?_, ?_, ?_, ?_⟩
  · intro today e str hdate hany
    unfold isFutureEvent
    rw [hdate]
    simp [futureStr_eq, hany]
  · intro today e str hdate hparses hany
    unfold isFutureEvent
    rw [hdate]
    simp [futureStr_eq, hany, hparses]
  · intro today e str hdate hparses
    have : (pySplit str).any (tokenFuture today) = false := by
      rw [List.any_eq_false] at hparses ⊢
      intro p hp
      have hnp := hparses p hp
      cases h : strptimeYmd (p.take 10) with
      | none => simp [tokenFuture, h]
      | some d => exact absurd (by simp [tokenParses, h]) hnp
    unfold isFutureEvent
    rw [hdate]
    simp [futureStr_eq, this, hparses]
  · intro today e items hdate hex
    unfold isFutureEvent
    rw [hdate]
    exact List.any_eq_true.mpr hex
  · intro today e items hdate hall
    unfold isFutureEvent
    rw [hdate]
    exact List.any_eq_false.mpr
      (fun i hi => by rw [hall i hi]; exact Bool.false_ne_true)

/-- C3 witness: the amended theorem applied at concrete dates — a future
date in a range string keeps the event, an all-past range string drops it,
an unparseable string keeps it, a past-only date list drops it, and a
future entry in a list keeps it. -/
theorem c3_witness :
    isFutureEvent refToday (dateEvent "u" (.s "2020-01-01 2099-01-01")) = true ∧
    isFutureEvent refToday (dateEvent "u" (.s "2020-01-01 2021-02-03")) = false ∧
    isFutureEvent refToday (dateEvent "u" (.s "hello world")) = true ∧
    isFutureEvent refToday (dateEvent "u" (.l [.s "2020-01-01"])) = false ∧
    isFutureEvent refToday (dateEvent "u" (.l [.s "bad", .d ⟨2099, 1, 1⟩])) = true :=
  ⟨c3_theorem.1 refToday _ _ rfl (by decide),
   c3_theorem.2.1 refToday _ _ rfl (by decide) (by decide),
   c3_theorem.2.2.1 refToday _ _ rfl (by decide),
   c3_theorem.2.2.2.2 refToday _ _ rfl (by decide),
   c3_theorem.2.2.2.1 refToday _ _ rfl ⟨.d ⟨2099, 1, 1⟩, by decide, by decide⟩⟩

/-! ## C1 — zero-event sources are not recorded as successful -/

/-- C1 counterexample: source A ("Eplus") raises and source B ("Songkick")
returns an empty event list without raising; B is nevertheless *not*
recorded as successful, the run collects nothing, and `save_results`
returns without deleting anything — so B's stale stored row survives,
contradicting the claim that all stale rows of B are deleted. -/
theorem c1_counterexample :
    collectResults [("Eplus", none), ("Songkick", some [])] = ([], []) ∧
    saveResults [] [] false false refToday
        [urlRow "https://www.songkick.com/concerts/old"] =
      ⟨[urlRow "https://www.songkick.com/concerts/old"], false, false⟩ := by
  refine ⟨by decide, by decide⟩

/-- C1 (amended): a source is recorded as successful for reconciliation
purposes iff its adapter call returned a *non-empty* event list without
raising (a raised failure is converted to an empty list by `run_connector`
and treated identically); consequently, when source A raises and source B
returns zero events, neither is recorded successful, the collected batch is
empty, and the run deletes no stored rows of either A or B — B's stale rows
are *not* reconciled away. -/
theorem c1_theorem :
    (∀ (outcomes : List (String × Option (List Event))) (name : String),
      name ∈ (collectResults outcomes).2 ↔
        ∃ evs, (name, some evs) ∈ outcomes ∧ evs ≠ []) ∧
    (∀ outcomes : List (String × Option (List Event)),
      (∀ p ∈ outcomes, p.2 = none ∨ p.2 = some ([] : List Event)) →
      ∀ (dryRun upsertFails : Bool) (today : PyDate) (store : Store),
        saveResults (collectResults outcomes).1 (collectResults outcomes).2
          dryRun upsertFails today store = ⟨store, false, false⟩) := by
  constructor
  · intro outcomes name
    induction outcomes with
    | nil => simp [collectResults]
    | cons p rest ih =>
      obtain ⟨n, res⟩ := p
      cases res with
      | none =>
        simp only [collectResults, Option.getD_none, List.isEmpty_nil, if_true]
        rw [ih]
        constructor
        · rintro ⟨evs, hmem, hne⟩
          exact ⟨evs, List.mem_cons_of_mem _ hmem, hne⟩
        · rintro ⟨evs, hmem, hne⟩
          rcases List.mem_cons.mp hmem with heq | hmem
          · exact absurd (congrArg Prod.snd heq) (by simp)
          · exact ⟨evs, hmem, hne⟩
      | some evs =>
        by_cases he : evs = []
        · subst he
          simp only [collectResults, Option.getD_some, List.isEmpty_nil, if_true]
          rw [ih]
          constructor
          · rintro ⟨evs, hmem, hne⟩
            exact ⟨evs, List.mem_cons_of_mem _ hmem, hne⟩
          · rintro ⟨evs, hmem, hne⟩
            rcases List.mem_cons.mp hmem with heq | hmem
            · have : some evs = some ([] : List Event) := congrArg Prod.snd heq
              exact absurd (Option.some.inj this) hne
            · exact ⟨evs, hmem, hne⟩
        · have hne : evs.isEmpty = false := by
            cases evs with
            | nil => exact absurd rfl he
            | cons a l => rfl
          simp only [collectResults, Option.getD_some, hne, Bool.false_eq_true,
            if_false]
          constructor
          · intro hmem
            rcases List.mem_cons.mp hmem with heq | hmem2
            · exact ⟨evs, by simp [heq], he⟩
            · obtain ⟨evs2, hm, hn2⟩ := ih.mp hmem2
              exact ⟨evs2, List.mem_cons_of_mem _ hm, hn2⟩
          · rintro ⟨evs2, hmem2, hne2⟩
            rcases List.mem_cons.mp hmem2 with heq | hm
            · exact List.mem_cons.mpr (Or.inl (congrArg Prod.fst heq))
            · exact List.mem_cons.mpr (Or.inr (ih.mpr ⟨evs2, hm, hne2⟩))
  · intro outcomes hall dryRun upsertFails today store
    have hcoll : collectResults outcomes = ([], []) := by
      induction outcomes with
      | nil => rfl
      | cons p rest ih =>
        have hrest := ih (fun q hq => hall q (List.mem_cons_of_mem _ hq))
        obtain ⟨n, res⟩ := p
        rcases hall (n, res) (List.mem_cons_self _ _) with h | h
        · have h2 : res = none := h
          subst h2
          simp [collectResults, hrest]
        · have h2 : res = some [] := h
          subst h2
          simp [collectResults, hrest]
    rw [hcoll]
    rfl

/-- C1 witness: the amended theorem applied concretely — a source returning
one event is recorded successful, and a run whose sources all raised or
returned nothing leaves an arbitrary concrete store untouched. -/
theorem c1_witness :
    ("Pia" ∈ (collectResults
        [("Pia", some [dateEvent "https://t.pia.jp/1" .null])]).2) ∧
    saveResults
        (collectResults [("Eplus", none), ("Songkick", some [])]).1
        (collectResults [("Eplus", none), ("Songkick", some [])]).2
        false false refToday [urlRow "https://eplus.jp/old"] =
      ⟨[urlRow "https://eplus.jp/old"], false, false⟩ :=
  ⟨(c1_theorem.1 _ _).mpr ⟨[dateEvent "https://t.pia.jp/1" .null],
      by decide, by decide⟩,
   c1_theorem.2 _ (by decide) false false refToday _⟩

/-! ## C2 — a failed upsert does not abort the reconciliation delete -/

/-- C2 counterexample: with a non-empty batch (one future eplus event), a
successful "Eplus" source and a store holding one stale eplus row, a
*failing* upsert is caught by `save_results` and the sync deletion still
executes: the outcome reports `didDelete = true` and the stale row is gone,
contradicting the claim that no delete is executed for the affected batch
when the store upsert fails. -/
theorem c2_counterexample :
    saveResults [dateEvent "https://eplus.jp/new" (.s "2099-01-01")] ["Eplus"]
        false true refToday [urlRow "https://eplus.jp/old"] =
      ⟨[], false, true⟩ := by decide

/-- C2 (amended): within one run the reconciliation delete is issued only
after the upsert attempt for that run — on success it operates on the
post-upsert store — but a failed upsert is caught and logged and does *not*
abort the reconciliation deletion: the delete step still executes (against
the store unchanged by the failed write), and whether it executes is
independent of whether the upsert failed. -/
theorem c2_theorem (allEvents : List Event) (sources : List String)
    (today : PyDate) (store : Store) (h : allEvents ≠ []) :
    ((saveResults allEvents sources false false today store).store =
      (let unique := dedupByUrl (allEvents.filter (isFutureEvent today))
       let srcMap := buildSourceUrlMap sources unique
       if srcMap.isEmpty then upsertRows store (unique.map toRow)
       else deleteMissingEvents srcMap (upsertRows store (unique.map toRow)))) ∧
    ((saveResults allEvents sources false true today store).store =
      (let unique := dedupByUrl (allEvents.filter (isFutureEvent today))
       let srcMap := buildSourceUrlMap sources unique
       if srcMap.isEmpty then store else deleteMissingEvents srcMap store)) ∧
    (∀ uf uf' : Bool,
      (saveResults allEvents sources false uf today store).didDelete =
      (saveResults allEvents sources false uf' today store).didDelete) := by
  have hne : allEvents.isEmpty = false := by
    cases allEvents with
    | nil => exact absurd rfl h
    | cons a l => rfl
  refine ⟨?_, ?_, ?_⟩
  · simp only [saveResults, hne, Bool.false_eq_true, if_false]
    cases hm : (buildSourceUrlMap sources
        (dedupByUrl (allEvents.filter (isFutureEvent today)))).isEmpty <;>
      simp [hm]
  · simp only [saveResults, hne, Bool.false_eq_true, if_false]
    cases hm : (buildSourceUrlMap sources
        (dedupByUrl (allEvents.filter (isFutureEvent today)))).isEmpty <;>
      simp [hm]
  · intro uf uf'
    simp only [saveResults, hne, Bool.false_eq_true, if_false]
    cases hm : (buildSourceUrlMap sources
        (dedupByUrl (allEvents.filter (isFutureEvent today)))).isEmpty <;>
      simp [hm]

/-- C2 witness: the amended theorem applied to a concrete failing-upsert
run — the delete execution flag is the same whether or not the upsert
failed. -/
theorem c2_witness :
    (saveResults [dateEvent "https://eplus.jp/new" (.s "2099-01-01")] ["Eplus"]
        false true refToday [urlRow "https://eplus.jp/old"]).didDelete =
    (saveResults [dateEvent "https://eplus.jp/new" (.s "2099-01-01")] ["Eplus"]
        false false refToday [urlRow "https://eplus.jp/old"]).didDelete :=
  (c2_theorem _ _ _ _ (by decide)).2.2 true false

/-! ## C8 — malformed time values do cause a construction error -/

theorem coerceTimeList_ok (xs : List RawTimeItem) :
    (coerceTimeList xs).toOption.isSome =
      xs.all (fun i => match i with
        | .t _ => true
        | .s x => (parsePyTime x).isSome) := by
  induction xs with
  | nil => rfl
  | cons i rest ih =>
    cases i with
    | t x =>
      simp only [coerceTimeList, coerceTimeItem, List.all_cons]
      cases h : coerceTimeList rest with
      | error e => rw [h] at ih; exact ih
      | ok ts => rw [h] at ih; exact ih
    | s x =>
      cases hp : parsePyTime x with
      | none => simp [coerceTimeList, coerceTimeItem, hp, Except.toOption]
      | some t =>
        simp only [coerceTimeList, coerceTimeItem, hp, List.all_cons]
        cases h : coerceTimeList rest with
        | error e => rw [h] at ih; exact ih
        | ok ts => rw [h] at ih; exact ih

/-- C8 counterexample: an Event candidate with its identity `url` present
but a malformed `time` value ("banana") raises a ValidationError — the
construction fails even though `url` is not missing, so absence of `url` is
not the only hard construction error. -/
theorem c8_counterexample :
    (rawWith (some "https://x/1") (.scalar (.s "banana"))).url =
      some "https://x/1" ∧
    (constructEvent (rawWith (some "https://x/1")
        (.scalar (.s "banana")))).toOption = none := by
  refine ⟨by decide, by decide⟩

/-- C8 (amended): Event construction fails exactly when the identity field
`url` is missing or a provided `time` entry cannot be coerced to a
time-of-day; for every other field, absent input degrades to a null field
(e.g. an all-absent candidate with a url constructs successfully with every
optional field null). -/
theorem c8_theorem :
    (∀ r : RawEvent, (constructEvent r).toOption.isSome =
      (r.url.isSome && timeCoercible r.time)) ∧
    (∀ u : String, constructEvent (rawWith (some u) .null) =
      .ok (dateEvent u .null)) := by
  constructor
  · intro r
    cases hu : r.url with
    | none => simp [constructEvent, hu, Except.toOption]
    | some u =>
      cases ht : r.time with
      | null => simp [constructEvent, hu, ht, validateTime, timeCoercible,
          Except.toOption]
      | scalar x =>
        cases x with
        | t y => simp [constructEvent, hu, ht, validateTime, coerceTimeItem,
            timeCoercible, Except.toOption]
        | s y =>
          cases hp : parsePyTime y with
          | none => simp [constructEvent, hu, ht, validateTime, coerceTimeItem,
              hp, timeCoercible, Except.toOption]
          | some t => simp [constructEvent, hu, ht, validateTime,
              coerceTimeItem, hp, timeCoercible, Except.toOption]
      | l xs =>
        have hlist := coerceTimeList_ok xs
        simp only [constructEvent, hu, ht, validateTime, timeCoercible,
          Option.isSome_some, Bool.true_and]
        cases h : coerceTimeList xs with
        | error e =>
          rw [h] at hlist
          simpa [Except.toOption] using hlist.symm
        | ok ts =>
          rw [h] at hlist
          simpa [Except.toOption] using hlist.symm
  · intro u
    rfl

/-! ## C6 — a list whose elements all clean away becomes `[]`, not null -/

theorem cleanTextStr_data_ne (s r : String) (h : cleanTextStr s = some r) :
    r.data ≠ [] := by
  simp only [cleanTextStr] at h
  split at h
  · exact absurd h (by simp)
  · split at h
    · exact absurd h (by simp)
    · rename_i ht5
      have hr := Option.some.inj h
      subst hr
      intro hd
      apply ht5
      rw [List.isEmpty_iff]
      exact hd

theorem ne_empty_of_data_ne (r : String) (h : r.data ≠ []) : r ≠ "" :=
  fun he => h (by rw [he])

theorem cleanTextStr_ne_some_empty (s : String) : cleanTextStr s ≠ some "" :=
  fun h => ne_empty_of_data_ne "" (cleanTextStr_data_ne s "" h) rfl

theorem cleanedDedup_mem (xs : List String) (seen : List String) (c : String)
    (h : c ∈ cleanedDedup xs seen) : c ∉ seen ∧ c ≠ "" := by
  induction xs generalizing seen with
  | nil => simp [cleanedDedup] at h
  | cons i rest ih =>
    simp only [cleanedDedup] at h
    cases hc : cleanText (some i) with
    | none =>
      simp only [hc] at h
      exact ih seen h
    | some c0 =>
      simp only [hc] at h
      by_cases hs : c0 ∈ seen
      · rw [if_pos hs] at h
        exact ih seen h
      · rw [if_neg hs] at h
        rcases List.mem_cons.mp h with heq | hmem
        · subst heq
          refine ⟨hs, ?_⟩
          intro habs
          subst habs
          exact cleanTextStr_ne_some_empty i hc
        · have := ih (c0 :: seen) hmem
          exact ⟨fun hm => this.1 (List.mem_cons_of_mem _ hm), this.2⟩

theorem cleanedDedup_nodup (xs : List String) (seen : List String) :
    (cleanedDedup xs seen).Nodup := by
  induction xs generalizing seen with
  | nil => exact List.nodup_nil
  | cons i rest ih =>
    simp only [cleanedDedup]
    cases hc : cleanText (some i) with
    | none => simp only [hc]; exact ih seen
    | some c0 =>
      simp only [hc]
      by_cases hs : c0 ∈ seen
      · rw [if_pos hs]
        exact ih seen
      · rw [if_neg hs]
        refine List.nodup_cons.mpr ⟨?_, ih (c0 :: seen)⟩
        intro hmem
        exact (cleanedDedup_mem rest (c0 :: seen) c0 hmem).1 (List.mem_cons_self _ _)

/-- C6 counterexample: a list-valued textual field whose elements all clean
away is validated to the *empty list* `[]`, not to the absent value — the
scalar shape does become absent, so only the list shape violates the
claim. -/
theorem c6_counterexample :
    cleanText (some "") = none ∧ cleanText (some " ") = none ∧
    validateText (.l ["", " "]) = .l [] := by
  refine ⟨by decide, by decide, by decide⟩

/-- C6 (amended): after cleaning/validation, every textual field contains no
duplicate cleaned values and no empty string — a scalar that is empty after
cleaning becomes absent (null) — but a list whose elements all clean away is
kept as the empty list `[]` rather than being represented as absent. -/
theorem c6_theorem :
    (∀ (xs ys : List String), validateText (.l xs) = .l ys →
      ys.Nodup ∧ ∀ y ∈ ys, y ≠ "") ∧
    (∀ x : String, cleanText (some x) = none → validateText (.s x) = .null) ∧
    (∀ x c : String, validateText (.s x) = .s c → c ≠ "") := by
  refine ⟨?_, ?_, ?_⟩
  · intro xs ys h
    have hys : ys = cleanedDedup xs [] := by
      have := h.symm
      simp only [validateText] at this
      exact (TextField.l.inj this.symm).symm
    subst hys
    exact ⟨cleanedDedup_nodup xs [],
      fun y hy => (cleanedDedup_mem xs [] y hy).2⟩
  · intro x h
    simp [validateText, h]
  · intro x c h
    simp only [validateText] at h
    cases hc : cleanText (some x) with
    | none => rw [hc] at h; exact absurd h (by simp)
    | some c0 =>
      rw [hc] at h
      have : c0 = c := TextField.s.inj h
      subst this
      intro habs
      subst habs
      exact cleanTextStr_ne_some_empty x hc

/-- C6 witness: the amended theorem applied concretely — a list with a
duplicate and an empty element validates to a duplicate-free, empty-free
list, and a whitespace-only scalar validates to the absent value. -/
theorem c6_witness :
    (["a"].Nodup ∧ ∀ y ∈ ["a"], y ≠ "") ∧ validateText (.s " ") = .null :=
  ⟨c6_theorem.1 ["a", "", "a"] ["a"] (by decide),
   c6_theorem.2.1 " " (by decide)⟩

/-! ## C7 — `clean_text` is not idempotent (double unescaping) -/

theorem unescapeAux_no_amp (fuel : Nat) (l : List Char) (h : '&' ∉ l) :
    unescapeAux fuel l = l := by
  induction fuel generalizing l with
  | zero => rfl
  | succ fuel ih =>
    cases l with
    | nil => rfl
    | cons c rest =>
      have hc : c ≠ '&' := fun he => h (he ▸ List.mem_cons_self _ _)
      have hrest : '&' ∉ rest := fun hm => h (List.mem_cons_of_mem _ hm)
      simp only [unescapeAux, if_neg hc]
      rw [ih rest hrest]

theorem unescape_no_amp (l : List Char) (h : '&' ∉ l) : htmlUnescape l = l :=
  unescapeAux_no_amp l.length l h

set_option maxHeartbeats 1600000 in
theorem nfkcTable_keys_high :
    nfkcTable.all (fun q => 0xA0 ≤ q.1.toNat) = true := by decide

set_option maxHeartbeats 1600000 in
theorem nfkcTable_targets_low :
    nfkcTable.all (fun p => p.2.toNat < 0x80) = true := by decide

theorem nbsp_mem_nfkcTable : (nbsp, ' ') ∈ nfkcTable := by
  unfold nfkcTable
  exact List.mem_append_right _ (List.mem_cons_self _ _)

theorem nfkcTable_find?_none_of_low (c : Char) (hc : c.toNat < 0xA0) :
    nfkcTable.find? (fun q => q.1 == c) = none := by
  rw [List.find?_eq_none]
  intro q hq hbeq
  have h1 := List.all_eq_true.mp nfkcTable_keys_high q hq
  have h2 : q.1 = c := by simpa using hbeq
  rw [h2] at h1
  simp only [decide_eq_true_eq] at h1
  omega

theorem nfkcChar_idem (c : Char) : nfkcChar (nfkcChar c) = nfkcChar c := by
  cases hc : nfkcTable.find? (fun p => p.1 == c) with
  | none =>
    have h1 : nfkcChar c = c := by simp only [nfkcChar, hc]
    rw [h1]
    exact h1
  | some p =>
    have hmem := List.mem_of_find?_eq_some hc
    have h1 : nfkcChar c = p.2 := by simp only [nfkcChar, hc]
    rw [h1]
    have h2 := List.all_eq_true.mp nfkcTable_targets_low p hmem
    simp only [decide_eq_true_eq] at h2
    have h3 := nfkcTable_find?_none_of_low p.2 (by omega)
    simp only [nfkcChar, h3]

theorem nfkcChar_ne_nbsp (c : Char) : nfkcChar c ≠ nbsp := by
  have hnbsp : nbsp.toNat = 0xA0 := by decide
  cases hc : nfkcTable.find? (fun p => p.1 == c) with
  | some p =>
    have hmem := List.mem_of_find?_eq_some hc
    have h1 : nfkcChar c = p.2 := by simp only [nfkcChar, hc]
    rw [h1]
    have h2 := List.all_eq_true.mp nfkcTable_targets_low p hmem
    simp only [decide_eq_true_eq] at h2
    intro he
    rw [he, hnbsp] at h2
    omega
  | none =>
    have h1 : nfkcChar c = c := by simp only [nfkcChar, hc]
    rw [h1]
    intro he
    subst he
    have := List.find?_eq_none.mp hc (nbsp, ' ') nbsp_mem_nfkcTable
    exact this (by simp)

theorem map_id_of_fixed (f : Char → Char) (l : List Char)
    (h : ∀ c ∈ l, f c = c) : l.map f = l := by
  induction l with
  | nil => rfl
  | cons c rest ih =>
    rw [List.map_cons, h c (List.mem_cons_self _ _),
      ih (fun x hx => h x (List.mem_cons_of_mem _ hx))]

theorem dropWhile_head_false (p : Char → Bool) (l : List Char) (c : Char)
    (h : (l.dropWhile p).head? = some c) : p c = false := by
  have h2 := List.head?_dropWhile_not p l
  rw [h] at h2
  exact h2

theorem dropWhile_noop (p : Char → Bool) (l : List Char)
    (h : ∀ c, l.head? = some c → p c = false) : l.dropWhile p = l := by
  cases l with
  | nil => rfl
  | cons c rest =>
    have hc := h c rfl
    simp [List.dropWhile_cons, hc]

theorem getLast?_dropWhile (p : Char → Bool) (l : List Char)
    (h : l.dropWhile p ≠ []) : (l.dropWhile p).getLast? = l.getLast? := by
  conv_rhs => rw [← @List.takeWhile_append_dropWhile _ p l]
  rw [List.getLast?_append]
  cases hx : (l.dropWhile p).getLast? with
  | none => exact absurd (List.getLast?_eq_none_iff.mp hx) h
  | some x => rfl

theorem mem_of_mem_stripChars (c : Char) (l : List Char)
    (h : c ∈ stripChars l) : c ∈ l := by
  unfold stripChars at h
  rw [List.mem_reverse] at h
  have h2 := List.Sublist.mem h (List.dropWhile_sublist _)
  rw [List.mem_reverse] at h2
  exact List.Sublist.mem h2 (List.dropWhile_sublist _)

theorem strip_idem (l : List Char) :
    stripChars (stripChars l) = stripChars l := by
  by_cases hBe : (l.dropWhile isStripSpace).reverse.dropWhile isStripSpace = []
  · have hS : stripChars l = [] := by
      unfold stripChars
      rw [hBe]
      rfl
    rw [hS]
    rfl
  · have hd1 : (stripChars l).dropWhile isStripSpace = stripChars l := by
      apply dropWhile_noop
      intro c hc
      have hc2 : ((l.dropWhile isStripSpace).reverse.dropWhile
          isStripSpace).getLast? = some c := by
        rw [← List.head?_reverse]
        exact hc
      rw [getLast?_dropWhile _ _ hBe, List.getLast?_reverse] at hc2
      exact dropWhile_head_false _ _ _ hc2
    have hrev : (stripChars l).reverse =
        (l.dropWhile isStripSpace).reverse.dropWhile isStripSpace := by
      unfold stripChars
      rw [List.reverse_reverse]
    have hd3 : (stripChars l).reverse.dropWhile isStripSpace =
        (stripChars l).reverse := by
      apply dropWhile_noop
      intro c hc
      rw [hrev] at hc
      exact dropWhile_head_false _ _ _ hc
    show (((stripChars l).dropWhile isStripSpace).reverse.dropWhile
        isStripSpace).reverse = stripChars l
    rw [hd1, hd3, List.reverse_reverse]

theorem mem_cleanList (l : List Char) (c : Char) (h : c ∈ cleanList l) :
    nfkcChar c = c ∧ isHiddenChar c = false ∧ c ≠ nbsp := by
  simp only [cleanList] at h
  obtain ⟨c0, hc0, hfc⟩ := List.mem_map.mp h
  have h3 := mem_of_mem_stripChars _ _ hc0
  have h2 := List.mem_filter.mp h3
  obtain ⟨x, hx, hnx⟩ := List.mem_map.mp h2.1
  have hc0nb : c0 ≠ nbsp := hnx ▸ nfkcChar_ne_nbsp x
  have hcc0 : c = c0 := by rw [← hfc, if_neg (by simp [hc0nb])]
  subst hcc0
  refine ⟨?_, ?_, hc0nb⟩
  · rw [← hnx]
    exact nfkcChar_idem x
  · simpa using h2.2

theorem strip_cleanList (l : List Char) :
    stripChars (cleanList l) = cleanList l := by
  simp only [cleanList]
  have hnb : ∀ c ∈ stripChars
      (((htmlUnescape l).map nfkcChar).filter (fun c => !isHiddenChar c)),
      c ≠ nbsp := by
    intro c hc
    have h3 := mem_of_mem_stripChars _ _ hc
    have h2 := List.mem_filter.mp h3
    obtain ⟨x, hx, hnx⟩ := List.mem_map.mp h2.1
    exact hnx ▸ nfkcChar_ne_nbsp x
  rw [map_id_of_fixed _ _ (fun c hc => by rw [if_neg (by simp [hnb c hc])])]
  exact strip_idem _

/-- `cleanList` is the identity on a string that is already fully cleaned
and contains no ampersand. -/
theorem cleanList_self (m : List Char) (hamp : '&' ∉ m)
    (hfix : ∀ c ∈ m, nfkcChar c = c) (hhid : ∀ c ∈ m, isHiddenChar c = false)
    (hnb : ∀ c ∈ m, c ≠ nbsp) (hstrip : stripChars m = m) :
    cleanList m = m := by
  simp only [cleanList]
  rw [unescape_no_amp m hamp, map_id_of_fixed _ _ hfix,
    List.filter_eq_self.mpr (fun a ha => by rw [hhid a ha]; rfl), hstrip,
    map_id_of_fixed _ _ (fun c hc => by rw [if_neg (by simp [hnb c hc])])]

theorem cleanTextStr_some (s r : String) (h : cleanTextStr s = some r) :
    r.data = cleanList s.toList ∧ r.data ≠ [] := by
  simp only [cleanTextStr] at h
  split at h
  · exact absurd h (by simp)
  · split at h
    · exact absurd h (by simp)
    · rename_i h0 ht5
      have hr := Option.some.inj h
      subst hr
      refine ⟨rfl, ?_⟩
      intro hd
      apply ht5
      rw [List.isEmpty_iff]
      exact hd

/-- C7 counterexample: `clean_text` is not idempotent — on `"&amp;amp;"`
one application yields `"&amp;"`, whose second cleaning unescapes again to
`"&"`. -/
theorem c7_counterexample :
    cleanText (some "&amp;amp;") = some "&amp;" ∧
    cleanText (cleanText (some "&amp;amp;")) = some "&" ∧
    cleanText (cleanText (some "&amp;amp;")) ≠ cleanText (some "&amp;amp;") := by
  refine ⟨by decide, by decide, by decide⟩

/-- C7 (amended): `clean(clean(x)) = clean(x)` holds whenever the cleaned
result contains no ampersand (the HTML-unescape pass re-fires on an
ampersand that survives cleaning, as in the counterexample); full-width
Latin letters and digits fold to their half-width forms, and HTML entities
are resolved (one pass). -/
theorem c7_theorem :
    (∀ s : Option String, (∀ r, cleanText s = some r → '&' ∉ r.data) →
      cleanText (cleanText s) = cleanText s) ∧
    cleanText (some "ＡＢＣｘｙｚ１２３") = some "ABCxyz123" ∧
    cleanText (some "a&amp;b&lt;c&gt;d") = some "a&b<c>d" := by
  refine ⟨?_, by decide, by decide⟩
  intro s hamp
  cases hs : cleanText s with
  | none => rfl
  | some r =>
    cases s with
    | none => exact absurd hs (by simp [cleanText])
    | some s0 =>
      have hs0 : cleanTextStr s0 = some r := hs
      obtain ⟨hdata, hne⟩ := cleanTextStr_some s0 r hs0
      have hampr : '&' ∉ r.data := hamp r hs
      show cleanTextStr r = some r
      have hne0 : ¬ (r.toList.isEmpty = true) := by
        intro hh
        exact hne (List.isEmpty_iff.mp hh)
      have hself : cleanList r.toList = r.toList := by
        show cleanList r.data = r.data
        apply cleanList_self
        · exact hampr
        · intro c hc
          rw [hdata] at hc
          exact (mem_cleanList _ _ hc).1
        · intro c hc
          rw [hdata] at hc
          exact (mem_cleanList _ _ hc).2.1
        · intro c hc
          rw [hdata] at hc
          exact (mem_cleanList _ _ hc).2.2
        · rw [hdata]
          exact strip_cleanList _
      simp only [cleanTextStr]
      rw [if_neg hne0, hself, if_neg hne0]
      rfl

/-- C7 witness: the amended idempotence applied at a concrete input whose
cleaned form has no ampersand. -/
theorem c7_witness :
    cleanText (cleanText (some "ＡＢＣ")) = cleanText (some "ＡＢＣ") :=
  c7_theorem.1 (some "ＡＢＣ") (fun r hr => by
    have h1 : cleanText (some "ＡＢＣ") = some "ABC" := by decide
    rw [h1] at hr
    have h2 := Option.some.inj hr
    subst h2
    decide)

/-! ## C5 — url-keyed persistence: dedup and upsert idempotence -/

theorem find?_map_replace_ne (S : Store) (r : Row) (u : String)
    (hne : u ≠ r.url) :
    (S.map (fun x => if x.url == r.url then r else x)).find?
      (fun x => x.url == u) = S.find? (fun x => x.url == u) := by
  have hru : r.url ≠ u := fun h => hne h.symm
  induction S with
  | nil => rfl
  | cons x xs ih =>
    rw [List.map_cons]
    by_cases hxr : x.url = r.url
    · have hxu : x.url ≠ u := by rw [hxr]; exact hru
      rw [if_pos (by simp [hxr]), List.find?_cons_of_neg _ (by simp [hru]),
        List.find?_cons_of_neg _ (by simp [hxu]), ih]
    · rw [if_neg (by simp [hxr])]
      by_cases hxu : x.url = u
      · rw [List.find?_cons_of_pos _ (by simp [hxu]),
          List.find?_cons_of_pos _ (by simp [hxu])]
      · rw [List.find?_cons_of_neg _ (by simp [hxu]),
          List.find?_cons_of_neg _ (by simp [hxu]), ih]

theorem find?_map_replace_eq (S : Store) (r : Row)
    (h : S.any (fun x => x.url == r.url) = true) :
    (S.map (fun x => if x.url == r.url then r else x)).find?
      (fun x => x.url == r.url) = some r := by
  induction S with
  | nil => simp at h
  | cons x xs ih =>
    rw [List.map_cons]
    by_cases hxr : x.url = r.url
    · rw [if_pos (by simp [hxr])]
      exact List.find?_cons_of_pos _ (by simp)
    · rw [if_neg (by simp [hxr]), List.find?_cons_of_neg _ (by simp [hxr])]
      apply ih
      rcases List.any_eq_true.mp h with ⟨y, hy, hyr⟩
      rcases List.mem_cons.mp hy with heq | hmem
      · subst heq
        exact absurd (by simpa using hyr) hxr
      · exact List.any_eq_true.mpr ⟨y, hmem, hyr⟩

/-- The effect of a single-row upsert on the store state. -/
theorem storeState_upsertRow (S : Store) (r : Row) (u : String) :
    storeState (upsertRow S r) u =
      if u = r.url then some r else storeState S u := by
  unfold upsertRow storeState
  by_cases hany : S.any (fun x => x.url == r.url) = true
  · rw [if_pos hany]
    by_cases hu : u = r.url
    · rw [if_pos hu, hu]
      exact find?_map_replace_eq S r hany
    · rw [if_neg hu]
      exact find?_map_replace_ne S r u hu
  · have hany2 : S.any (fun x => x.url == r.url) = false := by
      simpa using hany
    rw [if_neg hany, List.find?_append]
    by_cases hu : u = r.url
    · have h1 : S.find? (fun x => x.url == u) = none := by
        rw [List.find?_eq_none]
        intro x hx
        have h3 := List.any_eq_false.mp hany2 x hx
        rw [hu]
        simpa using h3
      rw [if_pos hu, h1]
      simp [hu]
    · rw [if_neg hu]
      have hru : r.url ≠ u := fun h2 => hu h2.symm
      cases hf : S.find? (fun x => x.url == u) with
      | some x => rfl
      | none =>
        have h2 : ([r].find? (fun x => x.url == u)) = none := by
          rw [List.find?_eq_none]
          intro x hx
          rw [List.mem_singleton.mp hx]
          simp [hru]
        rw [h2]
        rfl

/-- The effect of a batched upsert on the store state: the last batch row
carrying the url wins, otherwise the prior state is unchanged. -/
theorem storeState_upsertRows (rs : List Row) (S : Store) (u : String) :
    storeState (upsertRows S rs) u =
      (match lastWith rs u with
       | some x => some x
       | none => storeState S u) := by
  induction rs generalizing S with
  | nil => rfl
  | cons r rest ih =>
    show storeState (upsertRows (upsertRow S r) rest) u = _
    rw [ih]
    simp only [lastWith]
    cases hl : lastWith rest u with
    | some x => rfl
    | none =>
      rw [storeState_upsertRow]
      by_cases hu : u = r.url
      · rw [if_pos hu, if_pos (by simp [hu])]
      · have hru : r.url ≠ u := fun h2 => hu h2.symm
        rw [if_neg hu, if_neg (by simp [hru])]

theorem lastWith_none (rows : List Row) (u : String)
    (h : ∀ rr ∈ rows, rr.url ≠ u) : lastWith rows u = none := by
  induction rows with
  | nil => rfl
  | cons r rest ih =>
    have h1 := h r (List.mem_cons_self _ _)
    have h2 := ih (fun rr hrr => h rr (List.mem_cons_of_mem _ hrr))
    simp [lastWith, h2, h1]

theorem lastWith_eq_find? (rows : List Row) (u : String)
    (hnd : (rows.map Row.url).Nodup) :
    lastWith rows u = rows.find? (fun x => x.url == u) := by
  induction rows with
  | nil => rfl
  | cons r rest ih =>
    rw [List.map_cons, List.nodup_cons] at hnd
    by_cases hu : r.url = u
    · have hnone : lastWith rest u = none := by
        apply lastWith_none
        intro rr hrr he
        exact hnd.1 (List.mem_map.mpr ⟨rr, hrr, he.trans hu.symm⟩)
      simp [lastWith, hnone, hu]
    · rw [List.find?_cons_of_neg _ (by simp [hu]), ← ih hnd.2]
      simp only [lastWith]
      cases hl : lastWith rest u with
      | some x => rfl
      | none => rw [if_neg (by simp [hu])]

theorem find?_map_toRow (es : List Event) (u : String) :
    (es.map toRow).find? (fun row => row.url == u) =
      (es.find? (fun e => e.url == u)).map toRow := by
  induction es with
  | nil => rfl
  | cons e rest ih =>
    rw [List.map_cons]
    by_cases hu : e.url = u
    · rw [List.find?_cons_of_pos _ (by simp [toRow, hu]),
        List.find?_cons_of_pos _ (by simp [hu])]
      rfl
    · rw [List.find?_cons_of_neg _ (by simp [toRow, hu]),
        List.find?_cons_of_neg _ (by simp [hu]), ih]

theorem dedupAux_mem_url (es : List Event) (seen : List String) (e : Event)
    (h : e ∈ dedupByUrlAux es seen) : e.url ∉ seen := by
  induction es generalizing seen with
  | nil => simp [dedupByUrlAux] at h
  | cons f rest ih =>
    simp only [dedupByUrlAux] at h
    by_cases hf : f.url ∈ seen
    · rw [if_pos hf] at h
      exact ih seen h
    · rw [if_neg hf] at h
      rcases List.mem_cons.mp h with heq | hm
      · subst heq
        exact hf
      · have h2 := ih (f.url :: seen) hm
        exact fun hmem => h2 (List.mem_cons_of_mem _ hmem)

theorem dedupAux_nodup_urls (es : List Event) (seen : List String) :
    ((dedupByUrlAux es seen).map Event.url).Nodup := by
  induction es generalizing seen with
  | nil => exact List.nodup_nil
  | cons f rest ih =>
    simp only [dedupByUrlAux]
    by_cases hf : f.url ∈ seen
    · rw [if_pos hf]
      exact ih seen
    · rw [if_neg hf, List.map_cons]
      refine List.nodup_cons.mpr ⟨?_, ih (f.url :: seen)⟩
      intro hmem
      obtain ⟨e, he, heq⟩ := List.mem_map.mp hmem
      apply dedupAux_mem_url rest (f.url :: seen) e he
      rw [heq]
      exact List.mem_cons_self _ _

theorem dedupAux_find? (es : List Event) (seen : List String) (u : String)
    (hu : u ∉ seen) :
    (dedupByUrlAux es seen).find? (fun e => e.url == u) =
      es.find? (fun e => e.url == u) := by
  induction es generalizing seen with
  | nil => rfl
  | cons f rest ih =>
    simp only [dedupByUrlAux]
    by_cases hf : f.url ∈ seen
    · have hfu : f.url ≠ u := fun he => hu (he ▸ hf)
      rw [if_pos hf, ih seen hu, List.find?_cons_of_neg _ (by simp [hfu])]
    · rw [if_neg hf]
      by_cases hfu : f.url = u
      · rw [List.find?_cons_of_pos _ (by simp [hfu]),
          List.find?_cons_of_pos _ (by simp [hfu])]
      · rw [List.find?_cons_of_neg _ (by simp [hfu]),
          List.find?_cons_of_neg _ (by simp [hfu])]
        apply ih
        intro hmem
        rcases List.mem_cons.mp hmem with heq | hm
        · exact hfu heq.symm
        · exact hu hm

theorem find?_filter_all (B : List Event) (q : Event → Bool) (u : String)
    (h : ∀ e ∈ B, e.url = u → q e = true) :
    (B.filter q).find? (fun e => e.url == u) =
      B.find? (fun e => e.url == u) := by
  induction B with
  | nil => rfl
  | cons e rest ih =>
    rw [List.filter_cons]
    by_cases hq : q e = true
    · rw [if_pos hq]
      by_cases hu : e.url = u
      · rw [List.find?_cons_of_pos _ (by simp [hu]),
          List.find?_cons_of_pos _ (by simp [hu])]
      · rw [List.find?_cons_of_neg _ (by simp [hu]),
          List.find?_cons_of_neg _ (by simp [hu])]
        exact ih (fun x hx => h x (List.mem_cons_of_mem _ hx))
    · rw [if_neg hq]
      have hu : e.url ≠ u := fun he => hq (h e (List.mem_cons_self _ _) he)
      rw [List.find?_cons_of_neg _ (by simp [hu])]
      exact ih (fun x hx => h x (List.mem_cons_of_mem _ hx))

theorem countUrl_eq_one (S : Store) (u : String)
    (hnd : (S.map Row.url).Nodup) (hsome : (storeState S u).isSome = true) :
    countUrl S u = 1 := by
  induction S with
  | nil => simp [storeState] at hsome
  | cons r rest ih =>
    rw [List.map_cons, List.nodup_cons] at hnd
    by_cases hu : r.url = u
    · unfold countUrl
      rw [List.filter_cons, if_pos (by simp [hu])]
      have hrest : rest.filter (fun x => x.url == u) = [] := by
        rw [List.filter_eq_nil_iff]
        intro x hx hxu
        apply hnd.1
        exact List.mem_map.mpr ⟨x, hx, (by simpa using hxu : x.url = u).trans
          hu.symm⟩
      rw [hrest]
      rfl
    · unfold countUrl
      rw [List.filter_cons, if_neg (by simp [hu])]
      apply ih hnd.2
      unfold storeState at hsome
      rw [List.find?_cons_of_neg _ (by simp [hu])] at hsome
      exact hsome

theorem urls_upsertRow_nodup (S : Store) (r : Row)
    (h : (S.map Row.url).Nodup) : ((upsertRow S r).map Row.url).Nodup := by
  unfold upsertRow
  by_cases hany : S.any (fun x => x.url == r.url) = true
  · rw [if_pos hany]
    have hmaps : (S.map (fun x => if x.url == r.url then r else x)).map Row.url
        = S.map Row.url := by
      rw [List.map_map]
      apply List.map_congr_left
      intro x hx
      by_cases hxr : x.url = r.url
      · simp [Function.comp, hxr]
      · simp [Function.comp, hxr]
    rw [hmaps]
    exact h
  · rw [if_neg hany, List.map_append]
    rw [List.nodup_append]
    refine ⟨h, List.nodup_singleton _, ?_⟩
    intro a ha hb
    obtain ⟨x, hx, hxa⟩ := List.mem_map.mp ha
    have hab : a = r.url := List.mem_singleton.mp hb
    have h2 : S.any (fun x => x.url == r.url) = false := by simpa using hany
    have h3 := List.any_eq_false.mp h2 x hx
    apply h3
    rw [hxa, hab]
    simp

theorem urls_upsertRows_nodup (rs : List Row) (S : Store)
    (h : (S.map Row.url).Nodup) : ((upsertRows S rs).map Row.url).Nodup := by
  induction rs generalizing S with
  | nil => exact h
  | cons r rest ih => exact ih _ (urls_upsertRow_nodup S r h)

/-- C5: persistence is keyed on `url` — upserting the same row batch twice
leaves the store state (the row seen at each url) identical to upserting it
once; and for a batch containing events sharing a url (all of them
future-dated, over a store whose urls are unique as the upsert invariant
guarantees), the persisted store holds exactly one row for that url, namely
the serialization of the first-seen event with that url in the batch. -/
theorem c5_theorem :
    (∀ (S : Store) (rs : List Row) (u : String),
      storeState (upsertRows (upsertRows S rs) rs) u =
        storeState (upsertRows S rs) u) ∧
    (∀ (S : Store) (B : List Event) (today : PyDate) (u : String),
      (S.map Row.url).Nodup →
      (∃ e ∈ B, e.url = u) →
      (∀ e ∈ B, e.url = u → isFutureEvent today e = true) →
      countUrl (saveResults B [] false false today S).store u = 1 ∧
      storeState (saveResults B [] false false today S).store u =
        (B.find? (fun e => e.url == u)).map toRow) := by
  constructor
  · intro S rs u
    rw [storeState_upsertRows rs (upsertRows S rs) u,
      storeState_upsertRows rs S u]
    cases lastWith rs u <;> rfl
  · intro S B today u hnd hex hfut
    obtain ⟨e0, he0, he0u⟩ := hex
    have hneB : B.isEmpty = false := by
      cases B with
      | nil => simp at he0
      | cons a l => rfl
    have hstore : (saveResults B [] false false today S).store =
        upsertRows S ((dedupByUrl (B.filter (isFutureEvent today))).map toRow)
        := by
      unfold saveResults
      rw [hneB]
      rfl
    rw [hstore]
    have hfind : ((dedupByUrl (B.filter (isFutureEvent today))).map
        toRow).find? (fun x => x.url == u) =
        (B.find? (fun e => e.url == u)).map toRow := by
      rw [find?_map_toRow]
      congr 1
      rw [show dedupByUrl (B.filter (isFutureEvent today)) =
        dedupByUrlAux (B.filter (isFutureEvent today)) [] from rfl]
      rw [dedupAux_find? _ [] u (by simp)]
      exact find?_filter_all B _ u hfut
    have hnd2 : (((dedupByUrl (B.filter (isFutureEvent today))).map
        toRow).map Row.url).Nodup := by
      rw [List.map_map]
      rw [show (Row.url ∘ toRow) = Event.url from rfl]
      exact dedupAux_nodup_urls _ []
    have hBsome : (B.find? (fun e => e.url == u)).isSome = true :=
      List.find?_isSome.mpr ⟨e0, he0, by simp [he0u]⟩
    have hss : storeState (upsertRows S
        ((dedupByUrl (B.filter (isFutureEvent today))).map toRow)) u =
        (B.find? (fun e => e.url == u)).map toRow := by
      rw [storeState_upsertRows,
        lastWith_eq_find? _ u hnd2, hfind]
      cases hb : B.find? (fun e => e.url == u) with
      | none =>
        rw [hb] at hBsome
        simp at hBsome
      | some x => rfl
    refine ⟨?_, hss⟩
    apply countUrl_eq_one
    · exact urls_upsertRows_nodup _ S hnd
    · rw [hss]
      cases hb : B.find? (fun e => e.url == u) with
      | none =>
        rw [hb] at hBsome
        simp at hBsome
      | some x => rfl

/-- C5 witness: the theorem applied concretely — a batch with two distinct
events sharing a url persists exactly one row for it, the first-seen one,
and a double upsert equals a single upsert at every url. -/
theorem c5_witness :
    countUrl (saveResults
        [titledEvent "https://x/1" "first" (.s "2099-01-01"),
         titledEvent "https://x/1" "second" (.s "2099-01-01"),
         titledEvent "https://x/2" "other" (.s "2099-01-01")]
        [] false false refToday []).store "https://x/1" = 1 ∧
    storeState (saveResults
        [titledEvent "https://x/1" "first" (.s "2099-01-01"),
         titledEvent "https://x/1" "second" (.s "2099-01-01"),
         titledEvent "https://x/2" "other" (.s "2099-01-01")]
        [] false false refToday []).store "https://x/1" =
      some (toRow (titledEvent "https://x/1" "first" (.s "2099-01-01"))) ∧
    storeState (upsertRows (upsertRows [] [urlRow "https://x/9"])
        [urlRow "https://x/9"]) "https://x/9" =
      storeState (upsertRows [] [urlRow "https://x/9"]) "https://x/9" := by
  have h := c5_theorem.2 []
      [titledEvent "https://x/1" "first" (.s "2099-01-01"),
       titledEvent "https://x/1" "second" (.s "2099-01-01"),
       titledEvent "https://x/2" "other" (.s "2099-01-01")]
      refToday "https://x/1" (by decide)
      ⟨titledEvent "https://x/1" "first" (.s "2099-01-01"), by decide, rfl⟩
      (by decide)
  refine ⟨h.1, ?_, c5_theorem.1 [] [urlRow "https://x/9"] "https://x/9"⟩
  rw [h.2]
  decide

end Giggle
